import Mathlib

/-!
Shallow embedding of the xmlsurf Go library (xmlsurf.go, path.go, xmlmap.go,
options.go) and verification of the frozen claims about it.

Modelling conventions, recorded once here:

* The external streaming tokenizer (Go encoding/xml.Decoder) and the
  symmetric event emitter are out of scope per the specification; the
  parser is embedded as a function over the list of decoder events
  (start-element with resolved namespace URI and attributes, end-element,
  character data), and the serializer produces the list of encoder events.
  The byte stream is a deterministic function of that event list.
* A Go map[string]string is embedded as an insertion-ordered association
  list with unique keys (the NodupKeys predicate).  Go map iteration order
  is unspecified; wherever the Go code ranges over a map, the embedding
  iterates the association list in insertion order.  All universal
  theorems below are stated so that they hold for the Go code under any
  iteration order, and concrete evaluations are over inputs whose results
  are iteration-order independent.
* Go sort.Slice is an unstable sort; the embedding uses an insertion
  sort.  On inputs where the comparator is a strict total order (all
  inputs appearing in theorems below) every correct sort agrees.
* Go string indexing is by byte, Lean by character; all inputs considered
  are ASCII, where the two coincide.
-/

set_option linter.unusedVariables false

namespace Xmlsurf

/-!
Kernel-computable string primitives.  Lean's built-in String.splitOn,
String.trim, String.posOf and the String order are position-based loops
that the kernel does not reduce, so the embedding uses these
structurally recursive character-list equivalents of the Go string
functions (all inputs considered are ASCII, where Go's byte-based and
these character-based functions coincide).
-/

/-- Accumulator loop of splitOnChar. -/
def splitOnCharAux (sep : Char) : List Char → List Char → List String
  | [], acc => [String.mk acc.reverse]
  | c :: cs, acc =>
    if c == sep then String.mk acc.reverse :: splitOnCharAux sep cs []
    else splitOnCharAux sep cs (c :: acc)

/-- Go strings.Split with a one-character separator (the only form the
library uses: the path separator and the name-prefix colon). -/
def splitOnChar (sep : Char) (s : String) : List String :=
  splitOnCharAux sep s.data []

/-- Go strings.HasPrefix. -/
def strHasPrefix (s pre : String) : Bool :=
  List.isPrefixOf pre.data s.data

/-- Go s[n:] (drop the first n characters). -/
def strDrop (s : String) (n : Nat) : String :=
  String.mk (s.data.drop n)

/-- Go strings.TrimSpace. -/
def trimChars (s : String) : String :=
  String.mk (((s.data.dropWhile Char.isWhitespace).reverse.dropWhile Char.isWhitespace).reverse)

/-- Byte-wise lexicographic string comparison (Go string less-than). -/
def charListLt : List Char → List Char → Bool
  | [], [] => false
  | [], _ :: _ => true
  | _ :: _, [] => false
  | a :: as, b :: bs =>
    if a.toNat < b.toNat then true
    else if b.toNat < a.toNat then false
    else charListLt as bs

/-- Go string less-than on whole strings. -/
def strLt (a b : String) : Bool :=
  charListLt a.data b.data

/-- Go strings.Index(s, the colon) is not -1. -/
def hasColon (s : String) : Bool :=
  List.any s.data (fun c => c == ':')

/-- Join path segments with the separator (the parent-path builder loop
of Go parsePath, equivalent to an intercalation). -/
def joinSlash : List String → String
  | [] => ""
  | [x] => x
  | x :: xs => x ++ "/" ++ joinSlash xs

/-- Name of an XML element or attribute as delivered by the external
tokenizer.  Go encoding/xml resolves the namespace and stores the
namespace URI in Space; Local (a Lean keyword, so called localPart here)
is the local name. -/
structure XmlName where
  space : String
  localPart : String
deriving DecidableEq, Repr

/-- An attribute of a start-element token (Go xml.Attr). -/
structure XmlAttr where
  name : XmlName
  value : String
deriving DecidableEq, Repr

/-- A decoder/encoder event (Go xml.Token).  Go's EndElement carries the
element name, which ParseToMap never reads (tag matching is enforced by
the external decoder), so it is omitted. -/
inductive Token where
  | startElement (name : XmlName) (attrs : List XmlAttr)
  | endElement
  | charData (s : String)
deriving DecidableEq, Repr

/-- Go type ParseOptions.  The composable WithValueTransform chain is
represented by the final composed function, if any. -/
structure ParseOptions where
  includeNamespaces : Bool
  valueTransform : Option (String → String)

/-- Go DefaultParseOptions: namespaces included, no value transform. -/
def DefaultParseOptions : ParseOptions :=
  { includeNamespaces := true, valueTransform := none }

/-- Go type XMLMap (map[string]string), embedded as an insertion-ordered
association list; see the conventions above. -/
abbrev XMLMap : Type := List (String × String)

/-- Lookup in the association-list embedding of a Go map (m[k] with the
ok flag folded into the Option). -/
def assocGet {β : Type} (g : List (String × β)) (k : String) : Option β :=
  (List.find? (fun kv => kv.1 == k) g).map (fun kv => kv.2)

/-- Go map assignment m[k] = v in the association-list embedding:
overwrite the existing binding or append a new one. -/
def assocSet {β : Type} (g : List (String × β)) (k : String) (v : β) : List (String × β) :=
  if List.any g (fun kv => kv.1 == k) then
    List.map (fun kv => if kv.1 == k then (k, v) else kv) g
  else
    List.append g [(k, v)]

/-- Lookup in an XMLMap (Go m[k] with the ok flag). -/
def mapGet (m : XMLMap) (k : String) : Option String :=
  assocGet m k

/-- Go m[k] = v: overwrite the existing binding or append a new one. -/
def mapInsert (m : XMLMap) (k v : String) : XMLMap :=
  assocSet m k v

/-- Go delete(m, k). -/
def mapErase (m : XMLMap) (k : String) : XMLMap :=
  List.filter (fun kv => kv.1 != k) m

/-- Number of entries (Go len(m); the two agree on nodup-key lists). -/
def mapLen (m : XMLMap) : Nat := List.length m

/-- Well-formedness of the embedding of a Go map: keys are unique. -/
def NodupKeys (m : XMLMap) : Prop := (List.map Prod.fst m).Nodup

instance (m : XMLMap) : Decidable (NodupKeys m) := by
  unfold NodupKeys
  infer_instance

/-- Namespace prefix table (Go map[string]string namespaces), same
association-list embedding. -/
abbrev NsTable : Type := List (String × String)

/-- Lookup of a prefix in the namespace table. -/
def nsGet (ns : NsTable) (p : String) : Option String :=
  assocGet ns p

/-- Insert or overwrite a prefix binding (Go namespaces[p] = uri). -/
def nsInsert (ns : NsTable) (p uri : String) : NsTable :=
  assocSet ns p uri

/-- Element-occurrence counter table (Go map[string]int elementCounts). -/
abbrev CountTable : Type := List (String × Nat)

/-- Lookup a counter; Go returns the zero value 0 for missing keys. -/
def countsGet (c : CountTable) (k : String) : Nat :=
  (assocGet c k).getD 0

/-- Set a counter (Go elementCounts[k] = n). -/
def countsSet (c : CountTable) (k : String) (n : Nat) : CountTable :=
  assocSet c k n

/-- Go processNamespaces: record every xmlns / xmlns:p declaration of a
start tag in the (single, document-global) namespace table. -/
def processNamespaces (attrs : List XmlAttr) (namespaces : NsTable) : NsTable :=
  List.foldl
    (fun ns attr =>
      if attr.name.space == "xmlns" || attr.name.localPart == "xmlns" then
        let p := if attr.name.localPart == "xmlns" then "" else attr.name.localPart
        nsInsert ns p attr.value
      else ns)
    namespaces attrs

/-- Go buildElementName: attach a namespace prefix to a local name.  The
Go code ranges over the namespaces map looking for any prefix bound to
the URI (nondeterministic order); the embedding takes the first binding
in insertion order.  When no prefix is bound to the URI, the URI itself
is used as the prefix. -/
def buildElementName (elementName : String) (space : String) (namespaces : NsTable)
    (includeNamespaces : Bool) : String :=
  if !includeNamespaces || space == "" then elementName
  else
    let p := (((List.find? (fun kv => kv.2 == space) namespaces)).map (fun kv => kv.1)).getD ""
    (if p != "" then p else space) ++ ":" ++ elementName

/-- Go buildPath: append an element name to the current path. -/
def buildPath (currentPath elementName : String) : String :=
  if currentPath == "" then "/" ++ elementName
  else currentPath ++ "/" ++ elementName

/-- Go updateElementIndices: on the second occurrence of a base path the
existing entries at the base path (and everything below it) are scheduled
for the retroactive rename to basePath[1]; the indexed live path
basePath[count] is returned alongside. -/
def updateElementIndices (basePath : String) (count : Nat) (result : XMLMap) :
    List (String × String) × String :=
  let keysToUpdate :=
    if count == 2 then
      let bpSlash := basePath ++ "/"
      let bpAttr := basePath ++ "/@"
      List.filterMap
        (fun kv =>
          let k := kv.1
          if k == basePath || strHasPrefix k bpSlash || strHasPrefix k bpAttr then
            let tail :=
              if strHasPrefix k bpSlash then strDrop k basePath.length
              else if strHasPrefix k bpAttr then strDrop k basePath.length
              else ""
            some (k, basePath ++ "[1]" ++ tail)
          else none)
        result
    else []
  (keysToUpdate, basePath ++ "[" ++ toString count ++ "]")

/-- Apply the configured value transform, if any. -/
def applyTransform (options : ParseOptions) (s : String) : String :=
  match options.valueTransform with
  | some f => f s
  | none => s

/-- Go processAttribute: compute the path and (transformed) value for a
non-namespace-declaration attribute; namespace declarations yield the
sentinel pair of empty strings, which the caller skips. -/
def processAttribute (attr : XmlAttr) (path : String) (namespaces : NsTable)
    (options : ParseOptions) : String × String :=
  if attr.name.space == "xmlns" || attr.name.localPart == "xmlns" then ("", "")
  else
    let attrName :=
      if options.includeNamespaces && attr.name.space != "" then
        buildElementName attr.name.localPart attr.name.space namespaces true
      else attr.name.localPart
    let attrPath := path ++ "/@" ++ attrName
    (attrPath, applyTransform options attr.value)

/-- The mutable local state of Go ParseToMap's event loop. -/
structure ParseState where
  result : XMLMap
  pathStack : List String
  currentPath : String
  elementCounts : CountTable
  namespaces : NsTable
  rootSeen : Bool

/-- Initial state of the ParseToMap loop. -/
def initParseState : ParseState :=
  { result := [], pathStack := [], currentPath := "", elementCounts := [],
    namespaces := [], rootSeen := false }

/-- One iteration of Go ParseToMap's switch over the next token. -/
def parseStep (options : ParseOptions) (st : ParseState) (t : Token) :
    Except String ParseState :=
  match t with
  | Token.startElement name attrs =>
    if st.pathStack.isEmpty && st.rootSeen then
      Except.error "XML syntax error: multiple root elements"
    else
      let rootSeen := st.rootSeen || st.pathStack.isEmpty
      let namespaces := processNamespaces attrs st.namespaces
      let elementName :=
        buildElementName name.localPart name.space namespaces options.includeNamespaces
      let basePath := buildPath st.currentPath elementName
      let counts := countsSet st.elementCounts basePath (countsGet st.elementCounts basePath + 1)
      let count := countsGet counts basePath
      let (result1, newPath) :=
        if count > 1 then
          let (keysToUpdate, indexedPath) := updateElementIndices basePath count st.result
          let renamed := List.foldl
            (fun r ku =>
              let v := (mapGet r ku.1).getD ""
              mapInsert (mapErase r ku.1) ku.2 v)
            st.result keysToUpdate
          (renamed, indexedPath)
        else (st.result, basePath)
      let result2 := List.foldl
        (fun r attr =>
          let pv := processAttribute attr newPath namespaces options
          if pv.1 != "" then mapInsert r pv.1 pv.2 else r)
        result1 attrs
      Except.ok
        { result := result2, pathStack := st.pathStack ++ [newPath],
          currentPath := newPath, elementCounts := counts,
          namespaces := namespaces, rootSeen := rootSeen }
  | Token.endElement =>
    if st.pathStack.isEmpty then Except.ok st
    else
      let stack := st.pathStack.dropLast
      Except.ok
        { st with pathStack := stack, currentPath := (stack.getLast?).getD "" }
  | Token.charData s =>
    let value := trimChars s
    if value.length > 0 then
      Except.ok
        { st with result := mapInsert st.result st.currentPath (applyTransform options value) }
    else Except.ok st

/-- Go ParseToMap over the decoder event list: fold the loop body over the
tokens and reject an empty result (Go returns errors.New of the text EOF). -/
def ParseToMap (tokens : List Token) (options : ParseOptions) : Except String XMLMap := do
  let st ← List.foldlM (parseStep options) initParseState tokens
  if st.result.length == 0 then Except.error "EOF" else Except.ok st.result

/-- Go DiffType with its three constants. -/
inductive DiffType where
  | diffMissing
  | diffExtra
  | diffValue
deriving DecidableEq, Repr

/-- Go struct Diff: one discrepancy between two XMLMaps. -/
structure Diff where
  path : String
  leftValue : String
  rightValue : String
  type : DiffType
deriving DecidableEq, Repr

/-- Insert an element into a list sorted by the strict comparator less,
keeping it before the first element it compares less than. -/
def insertSortedBy {α : Type} (less : α → α → Bool) (x : α) : List α → List α
  | [] => [x]
  | y :: ys => if less x y then x :: y :: ys else y :: insertSortedBy less x ys

/-- Deterministic sort standing in for Go sort.Slice; see the conventions
at the top of the file. -/
def sortBy {α : Type} (less : α → α → Bool) (l : List α) : List α :=
  List.foldr (insertSortedBy less) [] l

/-- The sort.Slice call shared by findDiffs and findDiffsIgnoreOrder:
ascending by path string. -/
def sortDiffs (l : List Diff) : List Diff :=
  sortBy (fun a b => strLt a.path b.path) l

/-- Body of the left-map loop of Go findDiffs: the diff, if any, that one
entry of the left map contributes (a LeftOnly diff when the key is
missing on the right, a ValueMismatch diff when the values differ). -/
def leftDiffOf (other : XMLMap) (kv : String × String) : Option Diff :=
  match mapGet other kv.1 with
  | none => some { path := kv.1, leftValue := kv.2, rightValue := "", type := DiffType.diffExtra }
  | some ov =>
    if kv.2 != ov then
      some { path := kv.1, leftValue := kv.2, rightValue := ov, type := DiffType.diffValue }
    else none

/-- Body of the right-map loop of Go findDiffs: a RightOnly diff when the
key is missing on the left. -/
def rightDiffOf (m : XMLMap) (kv : String × String) : Option Diff :=
  if (mapGet m kv.1).isNone then
    some { path := kv.1, leftValue := "", rightValue := kv.2, type := DiffType.diffMissing }
  else none

/-- Go findDiffs: the ordered diff.  When the sizes differ both maps are
scanned; when the sizes agree only the left map is scanned (the Go
comment reads: maps have same size - just check for differing values). -/
def findDiffs (m other : XMLMap) : List Diff :=
  sortDiffs
    (if m.length != other.length then
      List.append (List.filterMap (leftDiffOf other) m) (List.filterMap (rightDiffOf m) other)
    else List.filterMap (leftDiffOf other) m)

/-- Go method Equal: no ordered diffs. -/
def Equal (m other : XMLMap) : Bool :=
  (findDiffs m other).length == 0

/-- Go method Diffs. -/
def Diffs (m other : XMLMap) : List Diff :=
  findDiffs m other

/-- Go helper: strip a trailing index from one path segment (everything
from the first opening bracket on). -/
def stripIndex (part : String) : String :=
  String.mk (List.takeWhile (fun c => c != '[') part.data)

/-- Go extractBasePath: remove every index suffix from every segment of a
path, preserving attribute segments. -/
def extractBasePath (path : String) : String :=
  let parts := splitOnChar '/' path
  let n := parts.length
  let start := if parts.headD "x" == "" then 1 else 0
  let init := if start == 1 then "/" else ""
  List.foldl
    (fun acc i =>
      if i < start then acc
      else
        let part := parts.getD i ""
        if part == "" then acc
        else
          let acc1 := acc ++ stripIndex part
          if i < n - 1 then acc1 ++ "/" else acc1)
    init (List.range n)

/-- Value sets of findDiffsIgnoreOrder (Go map[string]bool), embedded as
insertion-ordered duplicate-free lists. -/
def setInsert (s : List String) (v : String) : List String :=
  if List.contains s v then s else List.append s [v]

/-- Lookup in a basePath-keyed table of string lists (value sets or
original-path lists). -/
def groupsGet (g : List (String × List String)) (bp : String) : Option (List String) :=
  assocGet g bp

/-- Update-or-create of one group of a basePath-keyed table: the Go
idiom of creating the missing inner collection and then updating it (f
maps the old collection, the empty one for a fresh group, to the new
one). -/
def tableUpsert (g : List (String × List String)) (bp : String)
    (f : List String → List String) : List (String × List String) :=
  if List.any g (fun kv => kv.1 == bp) then
    List.map (fun kv => if kv.1 == bp then (kv.1, f kv.2) else kv) g
  else List.append g [(bp, f [])]

/-- Go values[basePath][v] = true (creating the inner set if needed). -/
def groupsInsertValue (g : List (String × List String)) (bp v : String) :
    List (String × List String) :=
  tableUpsert g bp (fun s => setInsert s v)

/-- Go pathsMap[basePath] = append(pathsMap[basePath], k). -/
def groupsAppendPath (g : List (String × List String)) (bp k : String) :
    List (String × List String) :=
  tableUpsert g bp (fun s => List.append s [k])

/-- The first two loops of Go findDiffsIgnoreOrder: group one map by base
path, collecting the value set and the original keys of every group. -/
def buildValueMaps (m : XMLMap) :
    (List (String × List String)) × (List (String × List String)) :=
  List.foldl
    (fun acc kv =>
      let bp := extractBasePath kv.1
      (groupsInsertValue acc.1 bp kv.2, groupsAppendPath acc.2 bp kv.1))
    ([], []) m

/-- Go mapSetsEqual: two value sets hold the same values. -/
def mapSetsEqual (set1 set2 : List String) : Bool :=
  set1.length == set2.length && List.all set1 (fun v => List.contains set2 v)

/-- Go collectDiffsForBasePath: report, for one base path, each value
present on only one side, citing the first original path carrying it. -/
def collectDiffsForBasePath (vals1 vals2 : List String) (exists2 : Bool)
    (paths1 paths2 : List String) (m other : XMLMap) : List Diff :=
  if !exists2 then
    List.map
      (fun p => { path := p, leftValue := (mapGet m p).getD "", rightValue := "",
                  type := DiffType.diffExtra })
      paths1
  else
    List.append
      (List.filterMap
        (fun v =>
          if List.contains vals2 v then none
          else
            (List.find? (fun p => (mapGet m p).getD "" == v) paths1).map
              (fun p => { path := p, leftValue := v, rightValue := "",
                          type := DiffType.diffExtra }))
        vals1)
      (List.filterMap
        (fun v =>
          if List.contains vals1 v then none
          else
            (List.find? (fun p => (mapGet other p).getD "" == v) paths2).map
              (fun p => { path := p, leftValue := "", rightValue := v,
                          type := DiffType.diffMissing }))
        vals2)

/-- The LeftOnly diffs for a whole base-path group missing on the right
(the basePath-missing-from-other arm of Go collectDiffsFromValueSets and
of collectDiffsForBasePath): one diff per original left path. -/
def missingGroupDiffsLeft (pm1 : List (String × List String)) (m : XMLMap) (bp : String) :
    List Diff :=
  List.map
    (fun p => { path := p, leftValue := (mapGet m p).getD "", rightValue := "",
                type := DiffType.diffExtra })
    ((groupsGet pm1 bp).getD [])

/-- The RightOnly diffs for a whole base-path group missing on the left
(the basePath-missing-from-m arm of Go collectDiffsFromValueSets). -/
def missingGroupDiffsRight (pm2 : List (String × List String)) (other : XMLMap) (bp : String) :
    List Diff :=
  List.map
    (fun p => { path := p, leftValue := "", rightValue := (mapGet other p).getD "",
                type := DiffType.diffMissing })
    ((groupsGet pm2 bp).getD [])

/-- Body of the first loop of Go collectDiffsFromValueSets for one group
of the left map: a whole-group report when the group is missing on the
right, the per-value comparison otherwise. -/
def crossGroupDiffs (values2 pm1 pm2 : List (String × List String)) (m other : XMLMap)
    (kv : String × List String) : List Diff :=
  match groupsGet values2 kv.1 with
  | none => missingGroupDiffsLeft pm1 m kv.1
  | some vals2 =>
    collectDiffsForBasePath kv.2 vals2 true
      ((groupsGet pm1 kv.1).getD []) ((groupsGet pm2 kv.1).getD []) m other

/-- Body of the second loop of Go collectDiffsFromValueSets for one group
of the right map: a whole-group report when the group is missing on the
left. -/
def rightOnlyGroupDiffs (values1 pm2 : List (String × List String)) (other : XMLMap)
    (kv : String × List String) : List Diff :=
  if (groupsGet values1 kv.1).isSome then []
  else missingGroupDiffsRight pm2 other kv.1

/-- Go collectDiffsFromValueSets, used when the group counts differ. -/
def collectDiffsFromValueSets (values1 values2 pm1 pm2 : List (String × List String))
    (m other : XMLMap) : List Diff :=
  List.append
    (List.foldl
      (fun acc kv => List.append acc (crossGroupDiffs values2 pm1 pm2 m other kv)) [] values1)
    (List.foldl
      (fun acc kv => List.append acc (rightOnlyGroupDiffs values1 pm2 other kv)) [] values2)

/-- Body of the equal-group-count loop of Go findDiffsIgnoreOrder for one
group of the left map: nothing when the group exists on the right with an
equal value set, the per-value comparison otherwise. -/
def groupDiffs (values2 pm1 pm2 : List (String × List String)) (m other : XMLMap)
    (kv : String × List String) : List Diff :=
  let vals2opt := groupsGet values2 kv.1
  let vals2 := vals2opt.getD []
  if vals2opt.isSome && mapSetsEqual kv.2 vals2 then []
  else
    collectDiffsForBasePath kv.2 vals2 vals2opt.isSome
      ((groupsGet pm1 kv.1).getD []) ((groupsGet pm2 kv.1).getD []) m other

/-- Go findDiffsIgnoreOrder: group both maps by base path and compare the
value sets of each group. -/
def findDiffsIgnoreOrder (m other : XMLMap) : List Diff :=
  sortDiffs
    (if (buildValueMaps m).1.length != (buildValueMaps other).1.length then
      collectDiffsFromValueSets (buildValueMaps m).1 (buildValueMaps other).1
        (buildValueMaps m).2 (buildValueMaps other).2 m other
    else
      List.foldl
        (fun acc kv =>
          List.append acc
            (groupDiffs (buildValueMaps other).1 (buildValueMaps m).2
              (buildValueMaps other).2 m other kv))
        [] (buildValueMaps m).1)

/-- Go method EqualIgnoreOrder: no order-insensitive diffs. -/
def EqualIgnoreOrder (m other : XMLMap) : Bool :=
  (findDiffsIgnoreOrder m other).length == 0

/-- Go method DiffsIgnoreOrder. -/
def DiffsIgnoreOrder (m other : XMLMap) : List Diff :=
  findDiffsIgnoreOrder m other

/-- Go comparePaths' table of well-known tag-name substrings with fixed
ranks (a Go map literal; the embedding fixes the textual order). -/
def specialElements : List (String × Nat) :=
  [("Header", 1), ("Body", 2), ("Username", 1), ("Token", 2), ("child", 1), ("another", 2)]

/-- Go strings.Contains. -/
def containsSubstr (s sub : String) : Bool :=
  decide (List.IsInfix sub.data s.data)

/-- Go getElementRank: exact match first, then substring match (the Go
code ranges over the map nondeterministically; the embedding scans the
table in textual order). -/
def getElementRank (part : String) : Nat :=
  match List.find? (fun kv => kv.1 == part) specialElements with
  | some kv => kv.2
  | none =>
    ((List.find? (fun kv => containsSubstr part kv.1) specialElements).map
      (fun kv => kv.2)).getD 0

/-- The segmentwise loop of Go comparePaths: the first differing pair of
segments decides, by rank when both segments are ranked and
lexicographically otherwise. -/
def comparePartsAux : List String → List String → Option Bool
  | a :: as, b :: bs =>
    if a != b then
      let rankI := getElementRank a
      let rankJ := getElementRank b
      if rankI > 0 && rankJ > 0 then some (decide (rankI < rankJ))
      else some (strLt a b)
    else comparePartsAux as bs
  | _, _ => none

/-- Go comparePaths: order two paths by depth, then by the first
differing segment, then by the whole string. -/
def comparePaths (pathI pathJ : String) : Bool :=
  let partsI := splitOnChar '/' pathI
  let partsJ := splitOnChar '/' pathJ
  if partsI.length != partsJ.length then decide (partsI.length < partsJ.length)
  else (comparePartsAux partsI partsJ).getD (strLt pathI pathJ)

/-- An attribute entry of a tree node.  Go reuses struct xmlNode with
isAttr set; only the fields the serializer reads (attrName, value) plus
the identifying path and name are kept. -/
structure XmlAttrNode where
  path : String
  name : String
  value : String
  attrName : String
deriving DecidableEq, Repr

/-- Go struct xmlNode.  Go children are pointers; every child node is
registered in the node map under its path, so children are identified
here by their paths. -/
structure XmlNode where
  path : String
  name : String
  value : String
  isAttr : Bool
  attrName : String
  children : List String
  attributes : List XmlAttrNode
  depth : Nat
deriving DecidableEq, Repr

/-- Go map[string]*xmlNode nodeMap, same association-list embedding;
pointer mutation of a node becomes an update of its entry. -/
abbrev NodeMap : Type := List (String × XmlNode)

/-- Lookup a node by path. -/
def nodeGet (nm : NodeMap) (path : String) : Option XmlNode :=
  assocGet nm path

/-- Go nodeMap[path] = node. -/
def nodeSet (nm : NodeMap) (path : String) (node : XmlNode) : NodeMap :=
  assocSet nm path node

/-- Go parent.children = append(parent.children, child), by parent path. -/
def nodeAddChild (nm : NodeMap) (parentPath childPath : String) : NodeMap :=
  List.map
    (fun kv =>
      if kv.1 == parentPath then
        (kv.1, { kv.2 with children := List.append kv.2.children [childPath] })
      else kv)
    nm

/-- Go parent.attributes = append(parent.attributes, attr). -/
def nodeAddAttr (nm : NodeMap) (parentPath : String) (a : XmlAttrNode) : NodeMap :=
  List.map
    (fun kv =>
      if kv.1 == parentPath then
        (kv.1, { kv.2 with attributes := List.append kv.2.attributes [a] })
      else kv)
    nm

/-- Go strings.Count(path, the separator): the depth measure used for
tree nodes. -/
def countSlashes (s : String) : Nat :=
  List.count '/' s.data

/-- Go parsePath: classify one key into (isAttr, parentPath, nodeName,
attrName).  The parent path joins all but the last segment; an
attribute-shaped last segment names its owning element, and any index is
stripped from the node name. -/
def parsePath (parts : List String) : Bool × String × String × String :=
  let nodeName0 := (parts.getLast?).getD ""
  let parentPath := joinSlash parts.dropLast
  let res :=
    if strHasPrefix nodeName0 "@" then
      let attrName := strDrop nodeName0 1
      let nodeName1 :=
        if parts.length ≥ 3 then parts.getD (parts.length - 2) "" else nodeName0
      (true, attrName, nodeName1)
    else (false, "", nodeName0)
  (res.1, parentPath, stripIndex res.2.2, res.2.1)

/-- The loop body of Go createParentNodes over the indices 1 to
len(parts)-2: build the (index-stripped) chain of parent paths,
synthesizing missing nodes. -/
def createParentNodesAux (parts : List String) :
    List Nat → NodeMap → Option String → String → NodeMap × Option String
  | [], nm, cur, _ => (nm, cur)
  | i :: rest, nm, cur, curPath =>
    let part := stripIndex (parts.getD i "")
    let path := if i == 1 then "/" ++ part else curPath ++ "/" ++ part
    match nodeGet nm path with
    | some _ => createParentNodesAux parts rest nm (some path) path
    | none =>
      let newNode : XmlNode :=
        { path := path, name := part, value := "", isAttr := false, attrName := "",
          children := [], attributes := [], depth := countSlashes path }
      let nm1 := nodeSet nm path newNode
      let nm2 :=
        match cur with
        | some cpath => nodeAddChild nm1 cpath path
        | none => nm1
      createParentNodesAux parts rest nm2 (some path) path

/-- Go createParentNodes.  Note that the Go code strips every index from
the segments when building the synthesized chain, so the identity of a
synthesized parent is the index-free path. -/
def createParentNodes (parts : List String) (nm : NodeMap) : NodeMap × Option String :=
  createParentNodesAux parts
    ((List.range parts.length).filter (fun i => decide (1 ≤ i) && decide (i + 1 < parts.length)))
    nm none ""

/-- Go addAttributeNode. -/
def addAttributeNode (nm : NodeMap) (parentPath path nodeName attrName value : String) :
    NodeMap :=
  nodeAddAttr nm parentPath { path := path, name := nodeName, value := value, attrName := attrName }

/-- Go addElementNode. -/
def addElementNode (nm : NodeMap) (parentPath path nodeName value : String) : NodeMap :=
  let node : XmlNode :=
    { path := path, name := nodeName, value := value, isAttr := false, attrName := "",
      children := [], attributes := [], depth := countSlashes path }
  nodeAddChild (nodeSet nm path node) parentPath path

/-- Go processSinglePath: attach one key of the map to the tree. -/
def processSinglePath (path : String) (m : XMLMap) (nm : NodeMap) : NodeMap :=
  let parts := splitOnChar '/' path
  if parts.length < 2 then nm
  else
    let pp := parsePath parts
    let isAttr := pp.1
    let parentPath := pp.2.1
    let nodeName := pp.2.2.1
    let attrName := pp.2.2.2
    let found :=
      match nodeGet nm parentPath with
      | some _ => (nm, some parentPath)
      | none => createParentNodes parts nm
    match found.2 with
    | none => found.1
    | some ppath =>
      if isAttr then
        addAttributeNode found.1 ppath path nodeName attrName ((mapGet m path).getD "")
      else
        addElementNode found.1 ppath path nodeName ((mapGet m path).getD "")

/-- Go buildXMLTree: create the root node, sort the remaining keys with
comparePaths (parents first, by the depth-major comparison) and fold
processSinglePath over them.  Go also returns the root pointer and a nil
error; the root is the entry of the returned map at rootPath. -/
def buildXMLTree (m : XMLMap) (rootPath : String) : NodeMap :=
  let rootName := if strHasPrefix rootPath "/" then strDrop rootPath 1 else rootPath
  let root : XmlNode :=
    { path := rootPath, name := rootName, value := (mapGet m rootPath).getD "",
      isAttr := false, attrName := "", children := [], attributes := [], depth := 1 }
  let nm : NodeMap := [(rootPath, root)]
  let paths := sortBy comparePaths (List.filter (fun p => p != rootPath) (List.map Prod.fst m))
  List.foldl (fun acc p => processSinglePath p m acc) nm paths

/-- Split a stored name at its first colon (Go strings.Index plus
slicing); names without a colon yield an empty prefix. -/
def splitNameOnColon (name : String) : String × String :=
  let pre := List.takeWhile (fun c => c != ':') name.data
  if pre.length == name.data.length then ("", name)
  else (String.mk pre, String.mk (name.data.drop (pre.length + 1)))

/-- Go writeXMLNode: emit the encoder events of one node.  The prefix and
local name are re-split and re-joined exactly as in Go (a no-op on the
name); a character-data token is emitted only when the stored value is
non-empty; children are sorted with comparePaths when there are at least
two.  Recursion is by fuel; every tree built by buildXMLTree has depth
bounded by the number of nodes, so ToXML passes sufficient fuel. -/
def writeXMLNode (nm : NodeMap) : Nat → String → List Token
  | 0, _ => []
  | Nat.succ fuel, path =>
    match nodeGet nm path with
    | none => []
    | some node =>
      let pl := splitNameOnColon node.name
      let tagName := if pl.1 != "" then pl.1 ++ ":" ++ pl.2 else pl.2
      let attrs := List.map
        (fun (a : XmlAttrNode) =>
          let an :=
            if hasColon a.attrName then
              let apl := splitNameOnColon a.attrName
              apl.1 ++ ":" ++ apl.2
            else a.attrName
          XmlAttr.mk (XmlName.mk "" an) a.value)
        node.attributes
      let kids :=
        if node.children.length > 1 then sortBy comparePaths node.children
        else node.children
      List.append
        (Token.startElement (XmlName.mk "" tagName) attrs ::
          (if node.value != "" then [Token.charData node.value] else []))
        (List.append
          (List.foldl (fun acc c => List.append acc (writeXMLNode nm fuel c)) [] kids)
          [Token.endElement])

/-- Go method ToXML, producing the encoder event list (the external
encoder renders it to bytes; the indent flag only changes the encoder's
inter-token whitespace).  The root is the first key, in iteration order,
with more than one slash-separated part; failure cases are the empty map
and the rootless map, in which no output is produced. -/
def ToXML (m : XMLMap) (indent : Bool) : Except String (List Token) :=
  if m.length == 0 then Except.error "empty XMLMap"
  else
    let rootPath :=
      ((List.find? (fun kv => decide ((splitOnChar '/' kv.1).length > 1)) m).map
        (fun kv => "/" ++ ((splitOnChar '/' kv.1).getD 1 ""))).getD ""
    if rootPath == "" then Except.error "no root element found"
    else
      let nm := buildXMLTree m rootPath
      Except.ok (writeXMLNode nm (nm.length + 1) rootPath)

/-!
Declarative, specification-side definitions used to state the comparison
claims (the code-side definitions above are the authority; these follow
the specification's wording so that the two can be compared).
-/

/-- The multiset of values of one base-path group of a map, as the
specification describes Contract B (written from the spec text: group
every key by its base path and compare value multisets).  Represented as
the list of values of all keys of the group, compared by counting. -/
def specGroupValues (m : XMLMap) (bp : String) : List String :=
  List.map Prod.snd (List.filter (fun kv => extractBasePath kv.1 == bp) m)

/-- A base-path group of a map contains a value (the set abstraction of
specGroupValues). -/
def specGroupHasValue (m : XMLMap) (bp v : String) : Prop :=
  ∃ k, (k, v) ∈ m ∧ extractBasePath k = bp

/-- Pointwise equality of all base-path groups of two maps, as sets of
values: the declarative reading of the order-insensitive comparison with
duplicate values collapsed. -/
def GroupsEquiv (a b : XMLMap) : Prop :=
  ∀ bp v, specGroupHasValue a bp v ↔ specGroupHasValue b bp v

/-- Extensional equality of two maps: every key is bound to the same
value on both sides (including absence). -/
def MapExtEq (a b : XMLMap) : Prop :=
  ∀ k, mapGet a k = mapGet b k

/-!
Concrete inputs appearing in the claims.
-/

/-- A namespace declaration attribute xmlns=uri as the Go decoder
delivers it (Space empty, Local xmlns). -/
def xmlnsAttr (u : String) : XmlAttr := XmlAttr.mk (XmlName.mk "" "xmlns") u

/-- A namespace declaration attribute xmlns:p=uri as the Go decoder
delivers it (Space xmlns, Local p). -/
def xmlnsPrefixedAttr (p u : String) : XmlAttr := XmlAttr.mk (XmlName.mk "xmlns" p) u

/-- Decoder events of the C4 document
(root, item id equals 1 with text first, item id equals 2 with text
second). -/
def c4events : List Token :=
  [ Token.startElement (XmlName.mk "" "root") [],
    Token.startElement (XmlName.mk "" "item") [XmlAttr.mk (XmlName.mk "" "id") "1"],
    Token.charData "first",
    Token.endElement,
    Token.startElement (XmlName.mk "" "item") [XmlAttr.mk (XmlName.mk "" "id") "2"],
    Token.charData "second",
    Token.endElement,
    Token.endElement ]

/-- The exact expected C4 result, in the insertion order the parser
produces. -/
def c4expected : XMLMap :=
  [("/root/item[1]/@id", "1"), ("/root/item[1]", "first"),
   ("/root/item[2]/@id", "2"), ("/root/item[2]", "second")]

/-- Decoder events of the C1 failing document: an element whose resolved
name embeds a namespace URI containing a slash (the URI-as-prefix
fallback of buildElementName), followed by a b element containing two
same-named children.  The element under root resolves to the name
b/c:a, so its base path /root/b/c:a collides with the base path of the
c:a children of b. -/
def c1events : List Token :=
  [ Token.startElement (XmlName.mk "" "root") [],
    Token.startElement (XmlName.mk "b/c" "a") [xmlnsAttr "b/c"],
    Token.charData "w",
    Token.endElement,
    Token.startElement (XmlName.mk "" "b") [],
    Token.startElement (XmlName.mk "c" "a") [xmlnsAttr "c"],
    Token.charData "v1",
    Token.endElement,
    Token.startElement (XmlName.mk "c" "a") [xmlnsAttr "c"],
    Token.charData "v2",
    Token.endElement,
    Token.endElement,
    Token.endElement ]

/-- Decoder events of the C6 failing document: prefix p is bound to u1 on
root, rebound to u2 inside the child a, and used (per the decoder's
correct scoping, which resolves it to u1) on a later sibling y. -/
def c6events : List Token :=
  [ Token.startElement (XmlName.mk "" "root") [xmlnsPrefixedAttr "p" "u1"],
    Token.startElement (XmlName.mk "" "a") [xmlnsPrefixedAttr "p" "u2"],
    Token.startElement (XmlName.mk "u2" "x") [],
    Token.charData "v",
    Token.endElement,
    Token.endElement,
    Token.startElement (XmlName.mk "u1" "y") [],
    Token.charData "w",
    Token.endElement,
    Token.endElement ]

/-- Decoder events of the C3 failing document
(root with two item children, each holding one name child with text). -/
def c3events : List Token :=
  [ Token.startElement (XmlName.mk "" "root") [],
    Token.startElement (XmlName.mk "" "item") [],
    Token.startElement (XmlName.mk "" "name") [],
    Token.charData "a",
    Token.endElement,
    Token.endElement,
    Token.startElement (XmlName.mk "" "item") [],
    Token.startElement (XmlName.mk "" "name") [],
    Token.charData "b",
    Token.endElement,
    Token.endElement,
    Token.endElement ]

/-- The map the C3 document parses to. -/
def c3m0 : XMLMap := [("/root/item[1]/name", "a"), ("/root/item[2]/name", "b")]

/-- The encoder events ToXML produces for c3m0: the two item siblings
have been merged into a single item container, because createParentNodes
keys synthesized parents by the index-stripped path. -/
def c3tokens : List Token :=
  [ Token.startElement (XmlName.mk "" "root") [],
    Token.startElement (XmlName.mk "" "item") [],
    Token.startElement (XmlName.mk "" "name") [],
    Token.charData "a",
    Token.endElement,
    Token.startElement (XmlName.mk "" "name") [],
    Token.charData "b",
    Token.endElement,
    Token.endElement,
    Token.endElement ]

/-- The map re-parsing c3tokens yields: the name elements are now the
indexed siblings, under a single unindexed item. -/
def c3m1 : XMLMap := [("/root/item/name[1]", "a"), ("/root/item/name[2]", "b")]

/-- The C2 counterexample pair: two sibling items with the same value on
the left, a single item with that value on the right. -/
def c2a : XMLMap := [("/root/item[1]", "v"), ("/root/item[2]", "v")]

/-- Right-hand side of the C2 counterexample. -/
def c2b : XMLMap := [("/root/item", "v")]

/-- The C10 failing map: an element entry with the empty string as value
(an indexed path with a descendant entry) next to a sibling whose name
sorts after the indexed path string but before the index-stripped one. -/
def c10map : XMLMap :=
  [("/root/item[1]", ""), ("/root/item[1]/name", "x"), ("/root/itemZ", "y")]

/-- Encoder events of ToXML c10map: the itemZ sibling is emitted first
(its path string sorts before /root/item[1]). -/
def c10tokens1 : List Token :=
  [ Token.startElement (XmlName.mk "" "root") [],
    Token.startElement (XmlName.mk "" "itemZ") [],
    Token.charData "y",
    Token.endElement,
    Token.startElement (XmlName.mk "" "item") [],
    Token.startElement (XmlName.mk "" "name") [],
    Token.charData "x",
    Token.endElement,
    Token.endElement,
    Token.endElement ]

/-- Encoder events of ToXML of c10map without the empty-valued entry: the
synthesized container is keyed /root/item, which sorts before
/root/itemZ, so the sibling order flips. -/
def c10tokens2 : List Token :=
  [ Token.startElement (XmlName.mk "" "root") [],
    Token.startElement (XmlName.mk "" "item") [],
    Token.startElement (XmlName.mk "" "name") [],
    Token.charData "x",
    Token.endElement,
    Token.endElement,
    Token.startElement (XmlName.mk "" "itemZ") [],
    Token.charData "y",
    Token.endElement,
    Token.endElement ]

/-!
Claim theorems (concrete evaluations).
-/

/-- C4: parsing the document with two item siblings carrying id
attributes yields exactly the four entries /root/item[1] = first,
/root/item[2] = second, /root/item[1]/@id = 1 and /root/item[2]/@id = 2
(c4expected lists precisely these four bindings). -/
theorem c4_concrete_parse :
    ParseToMap c4events DefaultParseOptions = Except.ok c4expected := rfl

/-- C1 (evaluation at the failing input): in the c1events document the
resolved element name c:a occurs exactly twice under the single b
element, yet its two occurrences are keyed /root/b/c:a[2] and
/root/b/c:a[3] rather than with the contiguous suffixes [1] and [2]; the
suffix [1] is carried by the entry of the unrelated element b/c:a that
occurs only once under root.  The global counter table keyed by base-path
strings collides when a namespace URI containing a slash is used as a
name prefix, breaking the claimed contiguous document-order indexing. -/
theorem c1_collision_breaks_contiguous_indexing :
    ParseToMap c1events DefaultParseOptions =
      Except.ok [("/root/b/c:a[1]", "w"), ("/root/b/c:a[2]", "v1"), ("/root/b/c:a[3]", "v2")] := rfl

/-- C6 (evaluation at the failing input): after the child a rebinds
prefix p from u1 to u2 and closes, the later element y (resolved by the
decoder to the outer URI u1) is keyed /root/u1:y with the URI itself as
prefix, not /root/p:y with the outer prefix: the parser's namespace table
is document-global and element close never restores the outer binding. -/
theorem c6_namespace_rebinding_persists :
    ParseToMap c6events DefaultParseOptions =
      Except.ok [("/root/a/p:x", "v"), ("/root/u1:y", "w")] := rfl

/-- C5 (evaluation at the failing input): diffing the singleton map at
/root/x against the singleton map at /root/y returns only the LeftOnly
diff for /root/x; the RightOnly diff for /root/y required by the claim
(and by the specification's concrete example) is missing, because the
equal-size branch of findDiffs scans only the left map. -/
theorem c5_right_only_key_unreported :
    findDiffs [("/root/x", "1")] [("/root/y", "1")] =
      [{ path := "/root/x", leftValue := "1", rightValue := "", type := DiffType.diffExtra }] := rfl

/-- C7: serializing the empty map fails with the empty-XMLMap error and
serializing the rootless singleton map at key nopath fails with the
no-root-element-found error, for either indent setting; the Except.error
results carry no output. -/
theorem c7_serialization_errors :
    ToXML ([] : XMLMap) false = Except.error "empty XMLMap" ∧
    ToXML ([] : XMLMap) true = Except.error "empty XMLMap" ∧
    ToXML [("nopath", "v")] false = Except.error "no root element found" ∧
    ToXML [("nopath", "v")] true = Except.error "no root element found" :=
  ⟨rfl, rfl, rfl, rfl⟩

/-- C3 (evaluation at the failing input): the c3events document satisfies
the claim's preconditions (no value transform, a single same-named
sibling group), parses to c3m0, serializes to c3tokens in which the two
item siblings are merged into one container, re-parses to c3m1, and the
round-tripped map is not Equal to the original. -/
theorem c3_round_trip_failure :
    ParseToMap c3events DefaultParseOptions = Except.ok c3m0 ∧
    ToXML c3m0 false = Except.ok c3tokens ∧
    ParseToMap c3tokens DefaultParseOptions = Except.ok c3m1 ∧
    Equal c3m0 c3m1 = false :=
  ⟨rfl, rfl, rfl, rfl⟩

/-- C10 (evaluation at the failing input): ToXML of c10map and ToXML of
the same map with the empty-valued element entry removed produce
different event sequences (the sibling order flips), contradicting the
claimed byte-for-byte equality; consistent with the second half of the
claim, neither output contains a character-data token for the empty
value. -/
theorem c10_empty_value_serialization_differs :
    ToXML c10map false = Except.ok c10tokens1 ∧
    ToXML (mapErase c10map "/root/item[1]") false = Except.ok c10tokens2 ∧
    c10tokens1 ≠ c10tokens2 ∧
    Token.charData "" ∉ c10tokens1 ∧
    Token.charData "" ∉ c10tokens2 :=
  ⟨rfl, rfl, by decide, by decide, by decide⟩

/-- C2 (counterexample): for the pair c2a, c2b the base-path group
/root/item carries the value v twice on the left and once on the right —
the multisets of values differ — yet EqualIgnoreOrder returns true, so
the claimed equivalence with multiset comparison is false; both maps are
well-formed (unique keys). -/
theorem c2_multiset_counterexample :
    EqualIgnoreOrder c2a c2b = true ∧
    List.count "v" (specGroupValues c2a "/root/item") = 2 ∧
    List.count "v" (specGroupValues c2b "/root/item") = 1 ∧
    NodupKeys c2a ∧ NodupKeys c2b := by
  refine ⟨rfl, by decide, by decide, by decide, by decide⟩

/-!
Supporting lemmas about the association-list embedding of Go maps.
-/

theorem assocGet_cons {β : Type} (hd : String × β) (tl : List (String × β)) (k : String) :
    assocGet (hd :: tl) k = if hd.1 == k then some hd.2 else assocGet tl k := by
  unfold assocGet
  cases h : (hd.1 == k) with
  | true => simp [List.find?_cons, h]
  | false => simp [List.find?_cons, h]

theorem mem_of_assocGet_eq_some {β : Type} {g : List (String × β)} {k : String} {v : β}
    (h : assocGet g k = some v) : (k, v) ∈ g := by
  induction g with
  | nil => simp [assocGet] at h
  | cons hd tl ih =>
    cases hd with
    | mk a b =>
      rw [assocGet_cons] at h
      by_cases hk : a = k
      · subst hk
        simp at h
        subst h
        exact List.mem_cons_self _ _
      · have hkb : (a == k) = false := beq_eq_false_iff_ne.mpr hk
        simp only [hkb] at h
        simp at h
        exact List.mem_cons_of_mem _ (ih h)

theorem assocGet_eq_some_of_mem {β : Type} {g : List (String × β)} {k : String} {v : β}
    (hn : (List.map Prod.fst g).Nodup) (h : (k, v) ∈ g) : assocGet g k = some v := by
  induction g with
  | nil => cases h
  | cons hd tl ih =>
    rw [List.map_cons, List.nodup_cons] at hn
    rw [assocGet_cons]
    rcases List.mem_cons.mp h with heq | hmem
    · rw [← heq]
      simp
    · have hk : hd.1 ≠ k := by
        intro hcon
        apply hn.1
        rw [hcon]
        exact List.mem_map.mpr ⟨(k, v), hmem, rfl⟩
      simp [hk]
      exact ih hn.2 hmem

theorem assocGet_eq_none_iff {β : Type} {g : List (String × β)} {k : String} :
    assocGet g k = none ↔ k ∉ List.map Prod.fst g := by
  induction g with
  | nil => simp [assocGet]
  | cons hd tl ih =>
    rw [assocGet_cons, List.map_cons]
    by_cases hk : hd.1 == k
    · simp [hk, beq_iff_eq.mp hk]
    · have : hd.1 ≠ k := by simpa using hk
      simp [hk, ih, Ne.symm this]

theorem assocGet_isSome_iff {β : Type} {g : List (String × β)} {k : String} :
    (assocGet g k).isSome = true ↔ k ∈ List.map Prod.fst g := by
  constructor
  · intro h
    by_contra hc
    rw [assocGet_eq_none_iff.mpr hc] at h
    simp at h
  · intro h
    cases hg : assocGet g k with
    | some v => rfl
    | none => exact absurd h (assocGet_eq_none_iff.mp hg)

theorem mem_of_mapGet_eq_some {m : XMLMap} {k v : String}
    (h : mapGet m k = some v) : (k, v) ∈ m :=
  mem_of_assocGet_eq_some h

theorem mapGet_eq_some_of_mem {m : XMLMap} {k v : String}
    (hn : NodupKeys m) (h : (k, v) ∈ m) : mapGet m k = some v :=
  assocGet_eq_some_of_mem hn h

theorem mapGet_eq_none_iff {m : XMLMap} {k : String} :
    mapGet m k = none ↔ k ∉ List.map Prod.fst m :=
  assocGet_eq_none_iff

theorem mapGet_isSome_iff {m : XMLMap} {k : String} :
    (mapGet m k).isSome = true ↔ k ∈ List.map Prod.fst m :=
  assocGet_isSome_iff

theorem nodup_mem_of_subset_of_le {l1 l2 : List String}
    (h1 : l1.Nodup) (h2 : l2.Nodup) (hsub : ∀ x ∈ l1, x ∈ l2)
    (hlen : l2.length ≤ l1.length) : ∀ x ∈ l2, x ∈ l1 := by
  have hfin : l1.toFinset ⊆ l2.toFinset := by
    intro x hx
    exact List.mem_toFinset.mpr (hsub x (List.mem_toFinset.mp hx))
  have hcard : l2.toFinset.card ≤ l1.toFinset.card := by
    rw [List.toFinset_card_of_nodup h1, List.toFinset_card_of_nodup h2]
    exact hlen
  have heq := Finset.eq_of_subset_of_card_le hfin hcard
  intro x hx
  exact List.mem_toFinset.mp (heq ▸ List.mem_toFinset.mpr hx)

theorem insertSortedBy_length {α : Type} (less : α → α → Bool) (x : α) (l : List α) :
    (insertSortedBy less x l).length = l.length + 1 := by
  induction l with
  | nil => rfl
  | cons y ys ih =>
    unfold insertSortedBy
    cases h : less x y with
    | true => simp [h]
    | false => simp [h, ih]

theorem sortBy_length {α : Type} (less : α → α → Bool) (l : List α) :
    (sortBy less l).length = l.length := by
  unfold sortBy
  induction l with
  | nil => rfl
  | cons x xs ih => simp [List.foldr_cons, insertSortedBy_length, ih]

theorem sortDiffs_eq_nil_iff {l : List Diff} : sortDiffs l = [] ↔ l = [] := by
  constructor
  · intro h
    have hl := congrArg List.length h
    rw [sortDiffs, sortBy_length] at hl
    exact List.length_eq_zero.mp hl
  · intro h
    subst h
    rfl

theorem leftDiffOf_eq_none_iff {other : XMLMap} {kv : String × String} :
    leftDiffOf other kv = none ↔ mapGet other kv.1 = some kv.2 := by
  unfold leftDiffOf
  cases hg : mapGet other kv.1 with
  | none => simp
  | some ov =>
    by_cases hv : kv.2 = ov
    · simp [hv]
    · simp [hv, bne_iff_ne]
      exact fun hcon => hv hcon.symm

theorem rightDiffOf_eq_none_iff {m : XMLMap} {kv : String × String} :
    rightDiffOf m kv = none ↔ (mapGet m kv.1).isSome = true := by
  unfold rightDiffOf
  cases hg : mapGet m kv.1 with
  | none => simp
  | some v => simp

theorem graphSub_keys_subset {a b : XMLMap}
    (h : ∀ kv ∈ a, mapGet b kv.1 = some kv.2) :
    ∀ k ∈ List.map Prod.fst a, k ∈ List.map Prod.fst b := by
  intro k hk
  obtain ⟨kv, hkv, hfst⟩ := List.mem_map.mp hk
  subst hfst
  have hg := h kv hkv
  exact mapGet_isSome_iff.mp (by rw [hg]; rfl)

theorem mapExtEq_of_graph_sub {a b : XMLMap} (ha : NodupKeys a) (hb : NodupKeys b)
    (h : ∀ kv ∈ a, mapGet b kv.1 = some kv.2) (hlen : a.length = b.length) :
    MapExtEq a b := by
  intro k
  cases hg : mapGet a k with
  | some v =>
    have hmem := mem_of_mapGet_eq_some hg
    exact (h (k, v) hmem).symm
  | none =>
    have hk : k ∉ List.map Prod.fst a := mapGet_eq_none_iff.mp hg
    cases hg2 : mapGet b k with
    | none => rfl
    | some w =>
      exfalso
      have hkb : k ∈ List.map Prod.fst b := mapGet_isSome_iff.mp (by rw [hg2]; rfl)
      have hrev := nodup_mem_of_subset_of_le ha hb (graphSub_keys_subset h)
        (by rw [List.length_map, List.length_map]; exact hlen.ge)
      exact hk (hrev k hkb)

theorem mapExtEq_keys_iff {a b : XMLMap} (h : MapExtEq a b) (k : String) :
    k ∈ List.map Prod.fst a ↔ k ∈ List.map Prod.fst b := by
  rw [← mapGet_isSome_iff, ← mapGet_isSome_iff, h k]

theorem keys_toFinset_eq_of_mem_iff {l1 l2 : List String}
    (h : ∀ x, x ∈ l1 ↔ x ∈ l2) : l1.toFinset = l2.toFinset := by
  ext x
  simp only [List.mem_toFinset]
  exact h x

theorem nodup_length_eq_of_mem_iff {l1 l2 : List String}
    (h1 : l1.Nodup) (h2 : l2.Nodup) (h : ∀ x, x ∈ l1 ↔ x ∈ l2) :
    l1.length = l2.length := by
  have hf := keys_toFinset_eq_of_mem_iff h
  have hc := congrArg Finset.card hf
  rwa [List.toFinset_card_of_nodup h1, List.toFinset_card_of_nodup h2] at hc

theorem mapExtEq_length_eq {a b : XMLMap} (ha : NodupKeys a) (hb : NodupKeys b)
    (h : MapExtEq a b) : a.length = b.length := by
  have := nodup_length_eq_of_mem_iff ha hb (mapExtEq_keys_iff h)
  rwa [List.length_map, List.length_map] at this

theorem equal_eq_true_iff_ext {a b : XMLMap} (ha : NodupKeys a) (hb : NodupKeys b) :
    Equal a b = true ↔ MapExtEq a b := by
  unfold Equal
  rw [beq_iff_eq, List.length_eq_zero]
  unfold findDiffs
  cases hlen : (a.length != b.length) with
  | false =>
    have hlen2 : a.length = b.length := by simpa using hlen
    rw [if_neg (by simp [hlen])]
    rw [sortDiffs_eq_nil_iff, List.filterMap_eq_nil_iff]
    constructor
    · intro h
      exact mapExtEq_of_graph_sub ha hb
        (fun kv hkv => leftDiffOf_eq_none_iff.mp (h kv hkv)) hlen2
    · intro h kv hkv
      exact leftDiffOf_eq_none_iff.mpr (by rw [← h kv.1]; exact mapGet_eq_some_of_mem ha hkv)
  | true =>
    have hlen2 : a.length ≠ b.length := by simpa using hlen
    rw [if_pos (by simp [hlen])]
    rw [sortDiffs_eq_nil_iff]
    constructor
    · intro h
      exfalso
      rw [List.append_eq, List.append_eq_nil] at h
      obtain ⟨hL, hR⟩ := h
      rw [List.filterMap_eq_nil_iff] at hL hR
      have hsub1 := graphSub_keys_subset (fun kv hkv => leftDiffOf_eq_none_iff.mp (hL kv hkv))
      have hsub2 : ∀ k ∈ List.map Prod.fst b, k ∈ List.map Prod.fst a := by
        intro k hk
        obtain ⟨kv, hkv, hfst⟩ := List.mem_map.mp hk
        subst hfst
        exact mapGet_isSome_iff.mp (rightDiffOf_eq_none_iff.mp (hR kv hkv))
      apply hlen2
      have := nodup_length_eq_of_mem_iff ha hb
        (fun x => ⟨fun hx => hsub1 x hx, fun hx => hsub2 x hx⟩)
      rwa [List.length_map, List.length_map] at this
    · intro h
      exact absurd (mapExtEq_length_eq ha hb h) hlen2

theorem find?_pair_cons {β : Type} (p : String) (x : β) (tl : List (String × β)) (q : String) :
    List.find? (fun kv => kv.1 == q) ((p, x) :: tl) =
      if p == q then some (p, x) else List.find? (fun kv => kv.1 == q) tl := by
  cases h : (p == q) with
  | true => simp [List.find?_cons, h]
  | false => simp [List.find?_cons, h]

theorem find?_map_keyUpdate (g : List (String × List String)) (bp : String)
    (f : List String → List String) :
    List.find? (fun kv => kv.1 == bp)
        (List.map (fun kv => if kv.1 == bp then (kv.1, f kv.2) else kv) g) =
      (List.find? (fun kv => kv.1 == bp) g).map (fun kv => (kv.1, f kv.2)) := by
  induction g with
  | nil => rfl
  | cons hd tl ih =>
    cases hd with
    | mk k s =>
      by_cases hk : k = bp
      · subst hk
        rw [List.map_cons, if_pos (show (((k, s).1 == k) = true) by simp)]
        rw [find?_pair_cons, find?_pair_cons]
        rw [if_pos (show ((k == k) = true) by simp), if_pos (show ((k == k) = true) by simp)]
        rfl
      · rw [List.map_cons, if_neg (by simp [hk])]
        rw [find?_pair_cons, find?_pair_cons]
        rw [if_neg (by simp [hk]), if_neg (by simp [hk])]
        exact ih

theorem find?_map_keyUpdate_other (g : List (String × List String)) (bp : String)
    (f : List String → List String) (bp2 : String) (h : bp2 ≠ bp) :
    List.find? (fun kv => kv.1 == bp2)
        (List.map (fun kv => if kv.1 == bp then (kv.1, f kv.2) else kv) g) =
      List.find? (fun kv => kv.1 == bp2) g := by
  induction g with
  | nil => rfl
  | cons hd tl ih =>
    cases hd with
    | mk k s =>
      by_cases hbp : k = bp
      · subst hbp
        have hk2 : k ≠ bp2 := fun hc => h hc.symm
        rw [List.map_cons, if_pos (show (((k, s).1 == k) = true) by simp)]
        rw [find?_pair_cons, find?_pair_cons]
        rw [if_neg (by simp [hk2]), if_neg (by simp [hk2])]
        exact ih
      · rw [List.map_cons, if_neg (by simp [hbp])]
        rw [find?_pair_cons, find?_pair_cons]
        by_cases hk2 : k = bp2
        · rw [if_pos (by simp [hk2]), if_pos (by simp [hk2])]
        · rw [if_neg (by simp [hk2]), if_neg (by simp [hk2])]
          exact ih

theorem find?_append_of_none {α : Type} {p : α → Bool} {l1 l2 : List α}
    (h : List.find? p l1 = none) :
    List.find? p (l1 ++ l2) = List.find? p l2 := by
  induction l1 with
  | nil => rfl
  | cons hd tl ih =>
    rw [List.find?_cons] at h
    cases hp : p hd with
    | true => rw [hp] at h; exact Option.noConfusion h
    | false =>
      rw [hp] at h
      rw [List.cons_append, List.find?_cons, hp]
      exact ih h

theorem find?_append_of_some {α : Type} {p : α → Bool} {l1 l2 : List α} {x : α}
    (h : List.find? p l1 = some x) :
    List.find? p (l1 ++ l2) = some x := by
  induction l1 with
  | nil => exact Option.noConfusion h
  | cons hd tl ih =>
    rw [List.find?_cons] at h
    cases hp : p hd with
    | true =>
      rw [hp] at h
      rw [List.cons_append, List.find?_cons, hp]
      exact h
    | false =>
      rw [hp] at h
      rw [List.cons_append, List.find?_cons, hp]
      exact ih h

theorem any_eq_false_find?_none {β : Type} {g : List (String × β)} {bp : String}
    (h : List.any g (fun kv => kv.1 == bp) = false) :
    List.find? (fun kv => kv.1 == bp) g = none := by
  rw [List.find?_eq_none]
  intro kv hkv
  intro hpred
  have : List.any g (fun kv => kv.1 == bp) = true := List.any_eq_true.mpr ⟨kv, hkv, hpred⟩
  rw [h] at this
  exact Bool.noConfusion this

theorem tableUpsert_get_self (g : List (String × List String)) (bp : String)
    (f : List String → List String) :
    groupsGet (tableUpsert g bp f) bp = some (f ((groupsGet g bp).getD [])) := by
  unfold tableUpsert groupsGet
  cases h : List.any g (fun kv => kv.1 == bp) with
  | true =>
    rw [if_pos rfl]
    unfold assocGet
    rw [find?_map_keyUpdate]
    have hsome : (List.find? (fun kv => kv.1 == bp) g).isSome := by
      rw [List.find?_isSome]
      obtain ⟨kv, hkv, hpred⟩ := List.any_eq_true.mp h
      exact ⟨kv, hkv, hpred⟩
    obtain ⟨kv, hkv⟩ := Option.isSome_iff_exists.mp hsome
    rw [hkv]
    simp
  | false =>
    rw [if_neg (by simp)]
    unfold assocGet
    have hnone := any_eq_false_find?_none h
    rw [List.append_eq, find?_append_of_none hnone, hnone]
    simp [List.find?]

theorem tableUpsert_get_other (g : List (String × List String)) (bp : String)
    (f : List String → List String) (bp2 : String) (h : bp2 ≠ bp) :
    groupsGet (tableUpsert g bp f) bp2 = groupsGet g bp2 := by
  unfold tableUpsert groupsGet
  cases hany : List.any g (fun kv => kv.1 == bp) with
  | true =>
    rw [if_pos rfl]
    unfold assocGet
    rw [find?_map_keyUpdate_other g bp f bp2 h]
  | false =>
    rw [if_neg (by simp)]
    unfold assocGet
    rw [List.append_eq]
    cases hf : List.find? (fun kv => kv.1 == bp2) g with
    | some kv => rw [find?_append_of_some hf]
    | none =>
      rw [find?_append_of_none hf]
      rw [find?_pair_cons, if_neg (by simp; exact fun hc => h hc.symm)]
      rfl

theorem tableUpsert_keys (g : List (String × List String)) (bp : String)
    (f : List String → List String) :
    List.map Prod.fst (tableUpsert g bp f) =
      if bp ∈ List.map Prod.fst g then List.map Prod.fst g
      else List.map Prod.fst g ++ [bp] := by
  unfold tableUpsert
  cases hany : List.any g (fun kv => kv.1 == bp) with
  | true =>
    have hmem : bp ∈ List.map Prod.fst g := by
      obtain ⟨kv, hkv, hpred⟩ := List.any_eq_true.mp hany
      exact List.mem_map.mpr ⟨kv, hkv, beq_iff_eq.mp hpred⟩
    rw [if_pos rfl, if_pos hmem, List.map_map]
    congr 1
    funext kv
    by_cases hk : kv.1 == bp
    · simp [Function.comp, hk, beq_iff_eq.mp hk]
    · simp [Function.comp, hk]
  | false =>
    have hmem : bp ∉ List.map Prod.fst g := by
      intro hc
      obtain ⟨kv, hkv, hfst⟩ := List.mem_map.mp hc
      have : List.any g (fun kv => kv.1 == bp) = true :=
        List.any_eq_true.mpr ⟨kv, hkv, beq_iff_eq.mpr hfst⟩
      rw [hany] at this
      exact Bool.noConfusion this
    rw [if_neg (by simp), if_neg hmem]
    simp

theorem contains_iff_mem {s : List String} {v : String} :
    List.contains s v = true ↔ v ∈ s := by
  rw [List.contains, List.elem_iff]

theorem setInsert_mem (s : List String) (w v : String) :
    v ∈ setInsert s w ↔ v ∈ s ∨ v = w := by
  unfold setInsert
  cases h : List.contains s w with
  | true =>
    have hw : w ∈ s := contains_iff_mem.mp h
    rw [if_pos rfl]
    constructor
    · exact Or.inl
    · rintro (hv | rfl)
      · exact hv
      · exact hw
  | false =>
    rw [if_neg (by simp)]
    simp [List.append_eq, List.mem_append]

theorem setInsert_ne_nil (s : List String) (w : String) : setInsert s w ≠ [] := by
  unfold setInsert
  cases h : List.contains s w with
  | true =>
    rw [if_pos rfl]
    intro hc
    have hw : w ∈ s := contains_iff_mem.mp h
    rw [hc] at hw
    cases hw
  | false =>
    rw [if_neg (by simp)]
    simp

theorem setInsert_nodup {s : List String} (h : s.Nodup) (w : String) :
    (setInsert s w).Nodup := by
  unfold setInsert
  cases hc : List.contains s w with
  | true =>
    rw [if_pos rfl]
    exact h
  | false =>
    rw [if_neg (by simp)]
    have hw : w ∉ s := by
      intro hmem
      rw [contains_iff_mem.mpr hmem] at hc
      exact Bool.noConfusion hc
    rw [List.append_eq]
    simp [List.nodup_append, h, hw]

theorem groupsGet_insertValue_self (g : List (String × List String)) (bp v : String) :
    groupsGet (groupsInsertValue g bp v) bp =
      some (setInsert ((groupsGet g bp).getD []) v) :=
  tableUpsert_get_self g bp (fun s => setInsert s v)

theorem groupsGet_insertValue_other (g : List (String × List String)) (bp v bp2 : String)
    (h : bp2 ≠ bp) :
    groupsGet (groupsInsertValue g bp v) bp2 = groupsGet g bp2 :=
  tableUpsert_get_other g bp (fun s => setInsert s v) bp2 h

theorem groupsGet_appendPath_self (g : List (String × List String)) (bp k : String) :
    groupsGet (groupsAppendPath g bp k) bp =
      some (List.append ((groupsGet g bp).getD []) [k]) :=
  tableUpsert_get_self g bp (fun s => List.append s [k])

theorem groupsGet_appendPath_other (g : List (String × List String)) (bp k bp2 : String)
    (h : bp2 ≠ bp) :
    groupsGet (groupsAppendPath g bp k) bp2 = groupsGet g bp2 :=
  tableUpsert_get_other g bp (fun s => List.append s [k]) bp2 h

theorem buildValueMaps_concat (m : XMLMap) (e : String × String) :
    buildValueMaps (m ++ [e]) =
      (groupsInsertValue (buildValueMaps m).1 (extractBasePath e.1) e.2,
       groupsAppendPath (buildValueMaps m).2 (extractBasePath e.1) e.1) := by
  unfold buildValueMaps
  rw [List.foldl_append]
  rfl

theorem bvm_values_mem (m : XMLMap) (bp v : String) :
    v ∈ ((groupsGet (buildValueMaps m).1 bp).getD []) ↔
      ∃ k, (k, v) ∈ m ∧ extractBasePath k = bp := by
  induction m using List.reverseRecOn with
  | nil => simp [buildValueMaps, groupsGet, assocGet]
  | append_singleton m e ih =>
    rw [buildValueMaps_concat]
    by_cases hbp : extractBasePath e.1 = bp
    · rw [← hbp]
      rw [groupsGet_insertValue_self]
      rw [Option.getD_some, setInsert_mem, hbp, ih]
      constructor
      · rintro (⟨k, hk, hbk⟩ | rfl)
        · exact ⟨k, List.mem_append_left _ hk, hbk⟩
        · exact ⟨e.1, List.mem_append_right _ (by simp), hbp⟩
      · rintro ⟨k, hk, hbk⟩
        rcases List.mem_append.mp hk with hk | hk
        · exact Or.inl ⟨k, hk, hbk⟩
        · right
          have he : (k, v) = e := List.mem_singleton.mp hk
          have : e.2 = v := by rw [← he]
          exact this.symm
    · rw [groupsGet_insertValue_other _ _ _ _ (fun hc => hbp hc.symm)]
      rw [ih]
      constructor
      · rintro ⟨k, hk, hbk⟩
        exact ⟨k, List.mem_append_left _ hk, hbk⟩
      · rintro ⟨k, hk, hbk⟩
        rcases List.mem_append.mp hk with hk | hk
        · exact ⟨k, hk, hbk⟩
        · exfalso
          have he : (k, v) = e := List.mem_singleton.mp hk
          have hke : k = e.1 := by rw [← he]
          rw [hke] at hbk
          exact hbp hbk

theorem bvm_paths_mem (m : XMLMap) (bp p : String) :
    p ∈ ((groupsGet (buildValueMaps m).2 bp).getD []) ↔
      p ∈ List.map Prod.fst m ∧ extractBasePath p = bp := by
  induction m using List.reverseRecOn with
  | nil => simp [buildValueMaps, groupsGet, assocGet]
  | append_singleton m e ih =>
    rw [buildValueMaps_concat]
    by_cases hbp : extractBasePath e.1 = bp
    · rw [← hbp]
      rw [groupsGet_appendPath_self, Option.getD_some, List.append_eq, List.mem_append,
        List.mem_singleton, hbp, ih]
      constructor
      · rintro (⟨hk, hbk⟩ | rfl)
        · exact ⟨by rw [List.map_append]; exact List.mem_append_left _ hk, hbk⟩
        · exact ⟨by rw [List.map_append]; simp, hbp⟩
      · rintro ⟨hk, hbk⟩
        rw [List.map_append] at hk
        rcases List.mem_append.mp hk with hk | hk
        · exact Or.inl ⟨hk, hbk⟩
        · right
          simpa using hk
    · rw [groupsGet_appendPath_other _ _ _ _ (fun hc => hbp hc.symm), ih]
      constructor
      · rintro ⟨hk, hbk⟩
        exact ⟨by rw [List.map_append]; exact List.mem_append_left _ hk, hbk⟩
      · rintro ⟨hk, hbk⟩
        rw [List.map_append] at hk
        rcases List.mem_append.mp hk with hk | hk
        · exact ⟨hk, hbk⟩
        · exfalso
          have : p = e.1 := by simpa using hk
          rw [this] at hbk
          exact hbp hbk

theorem groupsInsertValue_keys (g : List (String × List String)) (bp v : String) :
    List.map Prod.fst (groupsInsertValue g bp v) =
      if bp ∈ List.map Prod.fst g then List.map Prod.fst g
      else List.map Prod.fst g ++ [bp] :=
  tableUpsert_keys g bp (fun s => setInsert s v)

theorem groupsAppendPath_keys (g : List (String × List String)) (bp k : String) :
    List.map Prod.fst (groupsAppendPath g bp k) =
      if bp ∈ List.map Prod.fst g then List.map Prod.fst g
      else List.map Prod.fst g ++ [bp] :=
  tableUpsert_keys g bp (fun s => List.append s [k])

theorem bvm_values_keys_mem (m : XMLMap) (bp : String) :
    bp ∈ List.map Prod.fst (buildValueMaps m).1 ↔
      ∃ k ∈ List.map Prod.fst m, extractBasePath k = bp := by
  induction m using List.reverseRecOn with
  | nil => simp [buildValueMaps]
  | append_singleton m e ih =>
    rw [buildValueMaps_concat]
    show bp ∈ List.map Prod.fst (groupsInsertValue (buildValueMaps m).1 (extractBasePath e.1) e.2) ↔ _
    rw [groupsInsertValue_keys]
    by_cases hmem : extractBasePath e.1 ∈ List.map Prod.fst (buildValueMaps m).1
    · rw [if_pos hmem, ih]
      constructor
      · rintro ⟨k, hk, hbk⟩
        exact ⟨k, by rw [List.map_append]; exact List.mem_append_left _ hk, hbk⟩
      · rintro ⟨k, hk, hbk⟩
        rw [List.map_append] at hk
        rcases List.mem_append.mp hk with hk | hk
        · exact ⟨k, hk, hbk⟩
        · have hke : k = e.1 := by simpa using hk
          rw [hke] at hbk
          obtain ⟨k2, hk2, hbk2⟩ := ih.mp (hbk ▸ hmem)
          exact ⟨k2, hk2, hbk2⟩
    · rw [if_neg hmem, List.mem_append, List.mem_singleton, ih]
      constructor
      · rintro (⟨k, hk, hbk⟩ | rfl)
        · exact ⟨k, by rw [List.map_append]; exact List.mem_append_left _ hk, hbk⟩
        · exact ⟨e.1, by rw [List.map_append]; simp, rfl⟩
      · rintro ⟨k, hk, hbk⟩
        rw [List.map_append] at hk
        rcases List.mem_append.mp hk with hk | hk
        · exact Or.inl ⟨k, hk, hbk⟩
        · have hke : k = e.1 := by simpa using hk
          rw [hke] at hbk
          exact Or.inr hbk.symm

theorem bvm_values_get_ne_nil (m : XMLMap) (bp : String) {s : List String}
    (h : groupsGet (buildValueMaps m).1 bp = some s) : s ≠ [] := by
  induction m using List.reverseRecOn generalizing s with
  | nil => simp [buildValueMaps, groupsGet, assocGet] at h
  | append_singleton m e ih =>
    rw [buildValueMaps_concat] at h
    by_cases hbp : extractBasePath e.1 = bp
    · rw [← hbp, groupsGet_insertValue_self] at h
      injection h with h
      rw [← h]
      exact setInsert_ne_nil _ _
    · rw [groupsGet_insertValue_other _ _ _ _ (fun hc => hbp hc.symm)] at h
      exact ih h

theorem bvm_values_get_nodup (m : XMLMap) (bp : String) {s : List String}
    (h : groupsGet (buildValueMaps m).1 bp = some s) : s.Nodup := by
  induction m using List.reverseRecOn generalizing s with
  | nil => simp [buildValueMaps, groupsGet, assocGet] at h
  | append_singleton m e ih =>
    rw [buildValueMaps_concat] at h
    by_cases hbp : extractBasePath e.1 = bp
    · rw [← hbp, groupsGet_insertValue_self] at h
      injection h with h
      rw [← h]
      apply setInsert_nodup
      cases hg : groupsGet (buildValueMaps m).1 (extractBasePath e.1) with
      | none => simp [hg]
      | some s0 =>
        rw [hbp] at hg
        simpa using ih hg
    · rw [groupsGet_insertValue_other _ _ _ _ (fun hc => hbp hc.symm)] at h
      exact ih h

theorem bvm_values_keys_nodup (m : XMLMap) :
    (List.map Prod.fst (buildValueMaps m).1).Nodup := by
  induction m using List.reverseRecOn with
  | nil => simp [buildValueMaps]
  | append_singleton m e ih =>
    rw [buildValueMaps_concat]
    show (List.map Prod.fst (groupsInsertValue (buildValueMaps m).1 (extractBasePath e.1) e.2)).Nodup
    rw [groupsInsertValue_keys]
    by_cases hmem : extractBasePath e.1 ∈ List.map Prod.fst (buildValueMaps m).1
    · rw [if_pos hmem]
      exact ih
    · rw [if_neg hmem]
      simp [List.nodup_append, ih, hmem]

theorem bvm_keys_eq (m : XMLMap) :
    List.map Prod.fst (buildValueMaps m).1 = List.map Prod.fst (buildValueMaps m).2 := by
  induction m using List.reverseRecOn with
  | nil => rfl
  | append_singleton m e ih =>
    rw [buildValueMaps_concat]
    show List.map Prod.fst (groupsInsertValue (buildValueMaps m).1 (extractBasePath e.1) e.2) =
      List.map Prod.fst (groupsAppendPath (buildValueMaps m).2 (extractBasePath e.1) e.1)
    rw [groupsInsertValue_keys, groupsAppendPath_keys, ih]

theorem foldl_append_eq_flatten {α β : Type} (f : α → List β) (l : List α) (init : List β) :
    List.foldl (fun acc x => List.append acc (f x)) init l = init ++ (List.map f l).flatten := by
  induction l generalizing init with
  | nil => simp
  | cons x xs ih =>
    rw [List.map_cons, List.flatten_cons, List.foldl_cons, ih, List.append_eq,
      List.append_assoc]

theorem foldl_append_eq_nil_iff {α β : Type} (f : α → List β) (l : List α) :
    List.foldl (fun acc x => List.append acc (f x)) [] l = [] ↔ ∀ x ∈ l, f x = [] := by
  rw [foldl_append_eq_flatten]
  simp

theorem mapSetsEqual_iff_of_nodup {s1 s2 : List String} (h1 : s1.Nodup) (h2 : s2.Nodup) :
    mapSetsEqual s1 s2 = true ↔ ∀ v, v ∈ s1 ↔ v ∈ s2 := by
  unfold mapSetsEqual
  rw [Bool.and_eq_true, beq_iff_eq, List.all_eq_true]
  constructor
  · rintro ⟨hlen, hall⟩ v
    have hsub : ∀ x ∈ s1, x ∈ s2 := fun x hx => contains_iff_mem.mp (hall x hx)
    exact ⟨fun hv => hsub v hv,
      fun hv => nodup_mem_of_subset_of_le h1 h2 hsub (le_of_eq hlen.symm) v hv⟩
  · intro h
    exact ⟨nodup_length_eq_of_mem_iff h1 h2 h,
      fun v hv => contains_iff_mem.mpr ((h v).mp hv)⟩

theorem collectDiffsForBasePath_eq_nil_of_equiv {vals1 vals2 paths1 paths2 : List String}
    {m other : XMLMap} (h : ∀ v, v ∈ vals1 ↔ v ∈ vals2) :
    collectDiffsForBasePath vals1 vals2 true paths1 paths2 m other = [] := by
  unfold collectDiffsForBasePath
  rw [if_neg (by simp)]
  rw [List.append_eq, List.append_eq_nil]
  constructor
  · rw [List.filterMap_eq_nil_iff]
    intro v hv
    rw [if_pos (contains_iff_mem.mpr ((h v).mp hv))]
  · rw [List.filterMap_eq_nil_iff]
    intro v hv
    rw [if_pos (contains_iff_mem.mpr ((h v).mpr hv))]

theorem collectDiffsForBasePath_ne_nil_left {vals1 vals2 paths1 paths2 : List String}
    {m other : XMLMap} {v : String} (hv1 : v ∈ vals1) (hv2 : v ∉ vals2)
    (hrep : ∃ p ∈ paths1, (mapGet m p).getD "" = v) :
    collectDiffsForBasePath vals1 vals2 true paths1 paths2 m other ≠ [] := by
  unfold collectDiffsForBasePath
  rw [if_neg (by simp)]
  rw [List.append_eq]
  intro hc
  rw [List.append_eq_nil] at hc
  obtain ⟨hc1, _⟩ := hc
  rw [List.filterMap_eq_nil_iff] at hc1
  have h1 := hc1 v hv1
  rw [if_neg (fun hcon => hv2 (contains_iff_mem.mp hcon))] at h1
  obtain ⟨p, hp, hpv⟩ := hrep
  cases hfo : List.find? (fun p => (mapGet m p).getD "" == v) paths1 with
  | none =>
    rw [List.find?_eq_none] at hfo
    exact hfo p hp (beq_iff_eq.mpr hpv)
  | some q =>
    rw [hfo] at h1
    exact Option.noConfusion h1

theorem collectDiffsForBasePath_ne_nil_right {vals1 vals2 paths1 paths2 : List String}
    {m other : XMLMap} {v : String} (hv2 : v ∈ vals2) (hv1 : v ∉ vals1)
    (hrep : ∃ p ∈ paths2, (mapGet other p).getD "" = v) :
    collectDiffsForBasePath vals1 vals2 true paths1 paths2 m other ≠ [] := by
  unfold collectDiffsForBasePath
  rw [if_neg (by simp)]
  rw [List.append_eq]
  intro hc
  rw [List.append_eq_nil] at hc
  obtain ⟨_, hc2⟩ := hc
  rw [List.filterMap_eq_nil_iff] at hc2
  have h2 := hc2 v hv2
  rw [if_neg (fun hcon => hv1 (contains_iff_mem.mp hcon))] at h2
  obtain ⟨p, hp, hpv⟩ := hrep
  cases hfo : List.find? (fun p => (mapGet other p).getD "" == v) paths2 with
  | none =>
    rw [List.find?_eq_none] at hfo
    exact hfo p hp (beq_iff_eq.mpr hpv)
  | some q =>
    rw [hfo] at h2
    exact Option.noConfusion h2

theorem collectDiffsForBasePath_false_ne_nil {vals1 vals2 paths1 paths2 : List String}
    {m other : XMLMap} (h : paths1 ≠ []) :
    collectDiffsForBasePath vals1 vals2 false paths1 paths2 m other ≠ [] := by
  unfold collectDiffsForBasePath
  rw [if_pos (by simp)]
  simp [h]

theorem missingGroupDiffsLeft_ne_nil {pm1 : List (String × List String)} {m : XMLMap}
    {bp : String} (h : (groupsGet pm1 bp).getD [] ≠ []) :
    missingGroupDiffsLeft pm1 m bp ≠ [] := by
  unfold missingGroupDiffsLeft
  simp [h]

theorem missingGroupDiffsRight_ne_nil {pm2 : List (String × List String)} {other : XMLMap}
    {bp : String} (h : (groupsGet pm2 bp).getD [] ≠ []) :
    missingGroupDiffsRight pm2 other bp ≠ [] := by
  unfold missingGroupDiffsRight
  simp [h]

theorem specGroupHasValue_iff_bvm {a : XMLMap} {bp v : String} :
    specGroupHasValue a bp v ↔ v ∈ ((groupsGet (buildValueMaps a).1 bp).getD []) :=
  (bvm_values_mem a bp v).symm

theorem bvm_representative {a : XMLMap} (ha : NodupKeys a) {bp v : String}
    (h : v ∈ ((groupsGet (buildValueMaps a).1 bp).getD [])) :
    ∃ p ∈ ((groupsGet (buildValueMaps a).2 bp).getD []), (mapGet a p).getD "" = v := by
  obtain ⟨k, hk, hbk⟩ := (bvm_values_mem a bp v).mp h
  refine ⟨k, ?_, ?_⟩
  · exact (bvm_paths_mem a bp k).mpr ⟨List.mem_map.mpr ⟨(k, v), hk, rfl⟩, hbk⟩
  · rw [mapGet_eq_some_of_mem ha hk]
    rfl

theorem bvm_paths_ne_nil {a : XMLMap} (ha : NodupKeys a) {bp : String} {s : List String}
    (h : groupsGet (buildValueMaps a).1 bp = some s) :
    (groupsGet (buildValueMaps a).2 bp).getD [] ≠ [] := by
  have hs := bvm_values_get_ne_nil a bp h
  obtain ⟨v, hv⟩ := List.exists_mem_of_ne_nil s hs
  obtain ⟨p, hp, _⟩ := bvm_representative ha (show v ∈ ((groupsGet (buildValueMaps a).1 bp).getD []) by rw [h]; exact hv)
  intro hc
  rw [hc] at hp
  cases hp

theorem exists_key_iff_exists_value {a : XMLMap} (bp : String) :
    (∃ k ∈ List.map Prod.fst a, extractBasePath k = bp) ↔ ∃ v, specGroupHasValue a bp v := by
  constructor
  · rintro ⟨k, hk, hbk⟩
    obtain ⟨kv, hkv, hfst⟩ := List.mem_map.mp hk
    exact ⟨kv.2, kv.1, by simpa using hkv, by rw [hfst]; exact hbk⟩
  · rintro ⟨v, k, hk, hbk⟩
    exact ⟨k, List.mem_map.mpr ⟨(k, v), hk, rfl⟩, hbk⟩

theorem groupsEquiv_keys {a b : XMLMap} (h : GroupsEquiv a b) (bp : String) :
    bp ∈ List.map Prod.fst (buildValueMaps a).1 ↔
      bp ∈ List.map Prod.fst (buildValueMaps b).1 := by
  rw [bvm_values_keys_mem, bvm_values_keys_mem,
    exists_key_iff_exists_value, exists_key_iff_exists_value]
  constructor
  · rintro ⟨v, hv⟩
    exact ⟨v, (h bp v).mp hv⟩
  · rintro ⟨v, hv⟩
    exact ⟨v, (h bp v).mpr hv⟩

theorem groupsEquiv_values_len_eq {a b : XMLMap} (h : GroupsEquiv a b) :
    (buildValueMaps a).1.length = (buildValueMaps b).1.length := by
  have := nodup_length_eq_of_mem_iff (bvm_values_keys_nodup a) (bvm_values_keys_nodup b)
    (groupsEquiv_keys h)
  rwa [List.length_map, List.length_map] at this

theorem groupDiffs_eq_nil_iff {a b : XMLMap} (ha : NodupKeys a) (hb : NodupKeys b)
    {bp : String} {s : List String}
    (hs : groupsGet (buildValueMaps a).1 bp = some s) :
    groupDiffs (buildValueMaps b).1 (buildValueMaps a).2 (buildValueMaps b).2 a b (bp, s) = [] ↔
      ∃ s2, groupsGet (buildValueMaps b).1 bp = some s2 ∧ (∀ v, v ∈ s ↔ v ∈ s2) := by
  unfold groupDiffs
  cases hg : groupsGet (buildValueMaps b).1 bp with
  | none =>
    simp only [hg, Option.isSome_none, Option.getD_none, Bool.false_and]
    rw [if_neg (by simp)]
    constructor
    · intro hc
      exact absurd hc (collectDiffsForBasePath_false_ne_nil (bvm_paths_ne_nil ha hs))
    · rintro ⟨s2, hs2, _⟩
      exact Option.noConfusion hs2
  | some s2 =>
    simp only [hg, Option.isSome_some, Option.getD_some, Bool.true_and]
    have h1 := bvm_values_get_nodup a bp hs
    have h2 := bvm_values_get_nodup b bp hg
    cases hq : mapSetsEqual s s2 with
    | true =>
      rw [if_pos rfl]
      constructor
      · intro _
        exact ⟨s2, rfl, (mapSetsEqual_iff_of_nodup h1 h2).mp hq⟩
      · intro _
        rfl
    | false =>
      rw [if_neg (by simp)]
      constructor
      · intro hc
        exfalso
        have hniff : ¬ ∀ v, v ∈ s ↔ v ∈ s2 := by
          intro hiff
          rw [(mapSetsEqual_iff_of_nodup h1 h2).mpr hiff] at hq
          exact Bool.noConfusion hq
        obtain ⟨w, hw⟩ := not_forall.mp hniff
        by_cases hws : w ∈ s
        · have hws2 : w ∉ s2 := fun hin => hw ⟨fun _ => hin, fun _ => hws⟩
          exact collectDiffsForBasePath_ne_nil_left hws hws2
            (bvm_representative ha (show w ∈ ((groupsGet (buildValueMaps a).1 bp).getD []) by
              rw [hs]; exact hws)) hc
        · have hws2 : w ∈ s2 := by
            by_contra hno
            exact hw ⟨fun hin => absurd hin hws, fun hin => absurd hin hno⟩
          exact collectDiffsForBasePath_ne_nil_right hws2 hws
            (bvm_representative hb (show w ∈ ((groupsGet (buildValueMaps b).1 bp).getD []) by
              rw [hg]; exact hws2)) hc
      · rintro ⟨s2x, hs2x, hiff⟩
        injection hs2x with hx
        subst hx
        rw [(mapSetsEqual_iff_of_nodup h1 h2).mpr hiff] at hq
        exact Bool.noConfusion hq

theorem eqIgnoreOrder_iff_groupsEquiv {a b : XMLMap} (ha : NodupKeys a) (hb : NodupKeys b) :
    EqualIgnoreOrder a b = true ↔ GroupsEquiv a b := by
  unfold EqualIgnoreOrder
  rw [beq_iff_eq, List.length_eq_zero]
  unfold findDiffsIgnoreOrder
  rw [sortDiffs_eq_nil_iff]
  cases hlen : ((buildValueMaps a).1.length != (buildValueMaps b).1.length) with
  | true =>
    rw [if_pos rfl]
    have hlen2 : (buildValueMaps a).1.length ≠ (buildValueMaps b).1.length := by
      simpa using hlen
    constructor
    · intro h
      exfalso
      unfold collectDiffsFromValueSets at h
      rw [List.append_eq, List.append_eq_nil] at h
      obtain ⟨h1, h2⟩ := h
      rw [foldl_append_eq_nil_iff] at h1 h2
      have hsub1 : ∀ bp ∈ List.map Prod.fst (buildValueMaps a).1,
          bp ∈ List.map Prod.fst (buildValueMaps b).1 := by
        intro bp hbp
        obtain ⟨kv, hkv, hfst⟩ := List.mem_map.mp hbp
        have hc := h1 kv hkv
        unfold crossGroupDiffs at hc
        cases hg : groupsGet (buildValueMaps b).1 kv.1 with
        | some s2 =>
          rw [← hfst]
          exact assocGet_isSome_iff.mp (by rw [show assocGet (buildValueMaps b).1 kv.1 = some s2 from hg]; rfl)
        | none =>
          exfalso
          rw [hg] at hc
          have hsx : groupsGet (buildValueMaps a).1 kv.1 = some kv.2 :=
            assocGet_eq_some_of_mem (bvm_values_keys_nodup a) (by simpa using hkv)
          exact missingGroupDiffsLeft_ne_nil (bvm_paths_ne_nil ha hsx) hc
      have hsub2 : ∀ bp ∈ List.map Prod.fst (buildValueMaps b).1,
          bp ∈ List.map Prod.fst (buildValueMaps a).1 := by
        intro bp hbp
        obtain ⟨kv, hkv, hfst⟩ := List.mem_map.mp hbp
        have hc := h2 kv hkv
        unfold rightOnlyGroupDiffs at hc
        cases hg : (groupsGet (buildValueMaps a).1 kv.1).isSome with
        | true =>
          rw [← hfst]
          exact assocGet_isSome_iff.mp hg
        | false =>
          exfalso
          rw [hg] at hc
          rw [if_neg (by simp)] at hc
          have hsx : groupsGet (buildValueMaps b).1 kv.1 = some kv.2 :=
            assocGet_eq_some_of_mem (bvm_values_keys_nodup b) (by simpa using hkv)
          exact missingGroupDiffsRight_ne_nil (bvm_paths_ne_nil hb hsx) hc
      apply hlen2
      have := nodup_length_eq_of_mem_iff (bvm_values_keys_nodup a) (bvm_values_keys_nodup b)
        (fun bp => ⟨hsub1 bp, hsub2 bp⟩)
      rwa [List.length_map, List.length_map] at this
    · intro h
      exact absurd (groupsEquiv_values_len_eq h) hlen2
  | false =>
    rw [if_neg (by simp)]
    rw [foldl_append_eq_nil_iff]
    have hlenEq : (buildValueMaps a).1.length = (buildValueMaps b).1.length := by
      simpa using hlen
    constructor
    · intro h bp v
      rw [specGroupHasValue_iff_bvm, specGroupHasValue_iff_bvm]
      cases hg1 : groupsGet (buildValueMaps a).1 bp with
      | none =>
        have hnk1 : bp ∉ List.map Prod.fst (buildValueMaps a).1 := assocGet_eq_none_iff.mp hg1
        have hsub : ∀ x ∈ List.map Prod.fst (buildValueMaps a).1,
            x ∈ List.map Prod.fst (buildValueMaps b).1 := by
          intro x hx
          obtain ⟨kv, hkv, hfst⟩ := List.mem_map.mp hx
          have hsx : groupsGet (buildValueMaps a).1 kv.1 = some kv.2 :=
            assocGet_eq_some_of_mem (bvm_values_keys_nodup a) (by simpa using hkv)
          obtain ⟨s2, hs2, _⟩ := (groupDiffs_eq_nil_iff ha hb hsx).mp (h kv hkv)
          rw [← hfst]
          exact assocGet_isSome_iff.mp (by rw [show assocGet (buildValueMaps b).1 kv.1 = some s2 from hs2]; rfl)
        have hrev := nodup_mem_of_subset_of_le (bvm_values_keys_nodup a)
          (bvm_values_keys_nodup b) hsub
          (by rw [List.length_map, List.length_map]; exact hlenEq.ge)
        have hg2 : groupsGet (buildValueMaps b).1 bp = none :=
          assocGet_eq_none_iff.mpr (fun hin => hnk1 (hrev bp hin))
        rw [hg2]
      | some s =>
        have hgd := h (bp, s) (mem_of_assocGet_eq_some hg1)
        obtain ⟨s2, hs2, hiff⟩ := (groupDiffs_eq_nil_iff ha hb hg1).mp hgd
        rw [hs2]
        simpa using hiff v
    · intro h kv hkv
      have hs : groupsGet (buildValueMaps a).1 kv.1 = some kv.2 :=
        assocGet_eq_some_of_mem (bvm_values_keys_nodup a) (by simpa using hkv)
      have hpres : kv.1 ∈ List.map Prod.fst (buildValueMaps b).1 :=
        (groupsEquiv_keys h kv.1).mp
          (assocGet_isSome_iff.mp (by rw [show assocGet (buildValueMaps a).1 kv.1 = some kv.2 from hs]; rfl))
      obtain ⟨s2, hs2⟩ := Option.isSome_iff_exists.mp (assocGet_isSome_iff.mpr hpres)
      have hent : groupDiffs (buildValueMaps b).1 (buildValueMaps a).2 (buildValueMaps b).2
          a b (kv.1, kv.2) = [] := by
        apply (groupDiffs_eq_nil_iff ha hb hs).mpr
        refine ⟨s2, hs2, fun v => ?_⟩
        have hva : v ∈ kv.2 ↔ specGroupHasValue a kv.1 v := by
          rw [specGroupHasValue_iff_bvm, hs]
          rfl
        have hvb : v ∈ s2 ↔ specGroupHasValue b kv.1 v := by
          rw [specGroupHasValue_iff_bvm]
          rw [show groupsGet (buildValueMaps b).1 kv.1 = some s2 from hs2]
          rfl
        rw [hva, hvb]
        exact h kv.1 v
      simpa using hent

/-- C9: for well-formed maps (unique keys, as every Go map is), Equal
returns true exactly when the two maps are extensionally equal — every
key bound to the same value on both sides, absence included — and Equal
is symmetric even though the equal-size branch iterates only the left
map (the pigeonhole argument over the key sets makes one-sided inclusion
suffice). -/
theorem c9_equal_iff_extensional (a b : XMLMap) (ha : NodupKeys a) (hb : NodupKeys b) :
    (Equal a b = true ↔ MapExtEq a b) ∧ Equal a b = Equal b a := by
  refine ⟨equal_eq_true_iff_ext ha hb, ?_⟩
  cases hab : Equal a b with
  | true =>
    have hext := (equal_eq_true_iff_ext ha hb).mp hab
    exact ((equal_eq_true_iff_ext hb ha).mpr (fun k => (hext k).symm)).symm
  | false =>
    cases hba : Equal b a with
    | false => rfl
    | true =>
      exfalso
      have hext := (equal_eq_true_iff_ext hb ha).mp hba
      have h2 := (equal_eq_true_iff_ext ha hb).mpr (fun k => (hext k).symm)
      rw [hab] at h2
      exact Bool.noConfusion h2

/-- C9 witness: the characterization and the symmetry instantiated at a
concrete pair of well-formed maps. -/
theorem c9_equal_iff_extensional_witness :
    (Equal [("/root", "v")] [("/root", "w")] = true ↔
      MapExtEq [("/root", "v")] [("/root", "w")]) ∧
    Equal [("/root", "v")] [("/root", "w")] = Equal [("/root", "w")] [("/root", "v")] :=
  c9_equal_iff_extensional [("/root", "v")] [("/root", "w")] (by decide) (by decide)

/-- C2 (amended): for well-formed maps (unique keys), EqualIgnoreOrder
is true if and only if, after grouping every key of each map by its base
path (all index suffixes stripped from every segment, attribute segments
preserved), every base-path group's SET of values — duplicate values
collapsed, because the code stores value sets, not multisets — is the
same on both sides and no group exists on only one side (a group present
on one side has a nonempty value set, so pointwise set equality rules
out one-sided groups). -/
theorem c2_amended_value_sets_iff (a b : XMLMap) (ha : NodupKeys a) (hb : NodupKeys b) :
    EqualIgnoreOrder a b = true ↔ GroupsEquiv a b :=
  eqIgnoreOrder_iff_groupsEquiv ha hb

/-- C2 witness: the amended characterization instantiated at the
counterexample pair (both sides hold there: the value sets agree). -/
theorem c2_amended_value_sets_iff_witness :
    EqualIgnoreOrder c2a c2b = true ↔ GroupsEquiv c2a c2b :=
  c2_amended_value_sets_iff c2a c2b (by decide) (by decide)

/-- C8: on well-formed maps, EqualIgnoreOrder is reflexive and
symmetric, and order-sensitive equality implies order-insensitive
equality (via the value-set characterization of the ignore-order diff
and the extensional characterization of Equal). -/
theorem c8_equal_ignore_order_algebra (a b : XMLMap) (ha : NodupKeys a) (hb : NodupKeys b) :
    EqualIgnoreOrder a a = true ∧
    EqualIgnoreOrder a b = EqualIgnoreOrder b a ∧
    (Equal a b = true → EqualIgnoreOrder a b = true) := by
  refine ⟨?_, ?_, ?_⟩
  · exact (eqIgnoreOrder_iff_groupsEquiv ha ha).mpr (fun bp v => Iff.rfl)
  · cases hab : EqualIgnoreOrder a b with
    | true =>
      have hg := (eqIgnoreOrder_iff_groupsEquiv ha hb).mp hab
      exact ((eqIgnoreOrder_iff_groupsEquiv hb ha).mpr (fun bp v => (hg bp v).symm)).symm
    | false =>
      cases hba : EqualIgnoreOrder b a with
      | false => rfl
      | true =>
        exfalso
        have hg := (eqIgnoreOrder_iff_groupsEquiv hb ha).mp hba
        have hcon := (eqIgnoreOrder_iff_groupsEquiv ha hb).mpr (fun bp v => (hg bp v).symm)
        rw [hab] at hcon
        exact Bool.noConfusion hcon
  · intro hEq
    have hext := (equal_eq_true_iff_ext ha hb).mp hEq
    apply (eqIgnoreOrder_iff_groupsEquiv ha hb).mpr
    intro bp v
    constructor
    · rintro ⟨k, hk, hbk⟩
      have hg : mapGet b k = some v := by
        rw [← hext k]
        exact mapGet_eq_some_of_mem ha hk
      exact ⟨k, mem_of_mapGet_eq_some hg, hbk⟩
    · rintro ⟨k, hk, hbk⟩
      have hg : mapGet a k = some v := by
        rw [hext k]
        exact mapGet_eq_some_of_mem hb hk
      exact ⟨k, mem_of_mapGet_eq_some hg, hbk⟩

/-- C8 witness: the three properties instantiated at a concrete pair of
well-formed maps. -/
theorem c8_equal_ignore_order_algebra_witness :
    EqualIgnoreOrder [("/root", "x")] [("/root", "x")] = true ∧
    EqualIgnoreOrder [("/root", "x")] [("/root/y", "z")] =
      EqualIgnoreOrder [("/root/y", "z")] [("/root", "x")] ∧
    (Equal [("/root", "x")] [("/root/y", "z")] = true →
      EqualIgnoreOrder [("/root", "x")] [("/root/y", "z")] = true) :=
  c8_equal_ignore_order_algebra [("/root", "x")] [("/root/y", "z")] (by decide) (by decide)

end Xmlsurf
